import Mathlib

/-
Verification development for the `td` task tracker (src/src/main.rs).

Strings are modelled as lists of characters (`Str`).  Every Rust string
operation the program performs is on ASCII text at the positions that
matter (delimiters, keys, the sanitizer's denylist), so byte indices and
character indices coincide and `List Char` is a faithful model of `&str`.
-/

set_option maxHeartbeats 1000000
set_option maxRecDepth 4000

abbrev Str := List Char

/-- Denylist used by `sanitize_dir_name` (`problematic_chars` in main.rs). -/
def problematic_chars : List Char :=
  ['/', '\\', ':', '*', '?', '"', '<', '>', '|', ' ', '@', '#', '$', '%', '^', '&', '+', '=', '~']

/-- Rust `str::replace(c, "_")` for a single-character pattern `c`:
character-wise substitution of `c` by an underscore. -/
def replaceChar (c : Char) (s : Str) : Str :=
  s.map (fun x => if x = c then '_' else x)

/-- Rust `str::trim_matches(p)`: drop the longest run of characters
satisfying `p` from both ends. -/
def dropEdge (p : Char → Bool) (s : Str) : Str :=
  ((s.dropWhile p).reverse.dropWhile p).reverse

def isDotChar (c : Char) : Bool := c == '.'

/-- Embeds `sanitized.trim_matches('.')` from main.rs. -/
def trimDots (s : Str) : Str := dropEdge isDotChar s

/-- Rust `str::replace("..", "_")`: replace the leftmost, non-overlapping
occurrences of the two-character pattern `..` by a single underscore. -/
def replaceDotDot : Str → Str
  | [] => []
  | [c] => [c]
  | c :: d :: r =>
    if c = '.' ∧ d = '.' then '_' :: replaceDotDot r
    else c :: replaceDotDot (d :: r)

/-- Embeds `sanitize_dir_name` from main.rs: for each denylisted character in turn,
replace it by an underscore; then trim edge dots; then replace `..` by `_`. -/
def sanitize_dir_name (origin : Str) : Str :=
  let s1 := problematic_chars.foldl (fun s c => replaceChar c s) origin
  let s2 := trimDots s1
  replaceDotDot s2

/-- Single pass replacing every denylisted character by an underscore;
this is the first step of the algorithm as the specification words it. -/
def substituteDenylist (s : Str) : Str :=
  s.map (fun c => if c ∈ problematic_chars then '_' else c)

/-- Substring test: `hasSub pat s = true` iff `pat` occurs contiguously in `s`. -/
def hasSub (pat : Str) : Str → Bool
  | [] => pat.isEmpty
  | c :: t => pat.isPrefixOf (c :: t) || hasSub pat t

/- Helper lemmas about the sanitizer passes. -/

theorem foldl_replaceChar_eq_map (L : List Char) :
    ∀ s : Str, L.foldl (fun s c => replaceChar c s) s
      = s.map (fun x => if x ∈ L then '_' else x) := by
  induction L with
  | nil =>
    intro s
    simp [List.foldl]
  | cons c L ih =>
    intro s
    have hfun : ((fun x => if x ∈ L then '_' else x) ∘ fun x => if x = c then '_' else x)
        = fun x => if x ∈ c :: L then '_' else x := by
      funext x
      by_cases hx : x = c
      · subst hx
        simp
      · simp [hx, Function.comp]
    calc (c :: L).foldl (fun s c => replaceChar c s) s
        = L.foldl (fun s c => replaceChar c s) (replaceChar c s) := by simp [List.foldl]
      _ = (replaceChar c s).map (fun x => if x ∈ L then '_' else x) := ih _
      _ = s.map (fun x => if x ∈ c :: L then '_' else x) := by
          simp only [replaceChar, List.map_map, hfun]

theorem mem_replaceDotDot : ∀ s : Str, ∀ c ∈ replaceDotDot s, c ∈ s ∨ c = '_'
  | [] => by simp [replaceDotDot]
  | [a] => by
    intro c hc
    simp [replaceDotDot] at hc
    simp [hc]
  | a :: b :: r => by
    intro c hc
    by_cases h : a = '.' ∧ b = '.'
    · rw [replaceDotDot, if_pos h] at hc
      rcases List.mem_cons.mp hc with h1 | h1
      · right; exact h1
      · rcases mem_replaceDotDot r c h1 with h2 | h2
        · left; simp [h2]
        · right; exact h2
    · rw [replaceDotDot, if_neg h] at hc
      rcases List.mem_cons.mp hc with h1 | h1
      · left; simp [h1]
      · rcases mem_replaceDotDot (b :: r) c h1 with h2 | h2
        · left; simp [List.mem_cons.mp h2]
        · right; exact h2

theorem replaceDotDot_ne_nil : ∀ s : Str, s ≠ [] → replaceDotDot s ≠ []
  | [], h => absurd rfl h
  | [c], _ => by simp [replaceDotDot]
  | c :: d :: r, _ => by
    by_cases h : c = '.' ∧ d = '.' <;> simp [replaceDotDot, h]

theorem head?_replaceDotDot : ∀ s : Str,
    (replaceDotDot s).head? = s.head? ∨ (replaceDotDot s).head? = some '_'
  | [] => Or.inl rfl
  | [c] => Or.inl rfl
  | c :: d :: r => by
    by_cases h : c = '.' ∧ d = '.'
    · right; rw [replaceDotDot, if_pos h]; rfl
    · left; rw [replaceDotDot, if_neg h]; rfl

theorem getLast?_cons_of_ne_nil (a : Char) (l : Str) (h : l ≠ []) :
    (a :: l).getLast? = l.getLast? := by
  cases l with
  | nil => exact absurd rfl h
  | cons b t => exact List.getLast?_cons_cons

theorem getLast?_replaceDotDot : ∀ s : Str,
    (replaceDotDot s).getLast? = s.getLast? ∨ (replaceDotDot s).getLast? = some '_'
  | [] => Or.inl rfl
  | [c] => Or.inl rfl
  | c :: d :: r => by
    by_cases h : c = '.' ∧ d = '.'
    · rw [replaceDotDot, if_pos h]
      cases r with
      | nil => right; rfl
      | cons e r' =>
        have hne := replaceDotDot_ne_nil (e :: r') (by simp)
        rw [getLast?_cons_of_ne_nil _ _ hne]
        rcases getLast?_replaceDotDot (e :: r') with h1 | h1
        · left
          rw [h1]
          simp [List.getLast?_cons_cons]
        · right; exact h1
    · rw [replaceDotDot, if_neg h]
      have hne := replaceDotDot_ne_nil (d :: r) (by simp)
      rw [getLast?_cons_of_ne_nil _ _ hne]
      rcases getLast?_replaceDotDot (d :: r) with h1 | h1
      · left
        rw [h1]
        simp [List.getLast?_cons_cons]
      · right; exact h1

theorem isPrefixOf_dotdot_false {l : Str} (h : l.head? ≠ some '.') :
    (['.', '.'] : Str).isPrefixOf l = false := by
  cases l with
  | nil => rfl
  | cons c t =>
    have hc : c ≠ '.' := by
      intro hc
      exact h (by simp [hc])
    simp [List.isPrefixOf, Ne.symm hc]

theorem hasSub_dotdot_replaceDotDot : ∀ s : Str,
    hasSub ['.', '.'] (replaceDotDot s) = false
  | [] => rfl
  | [c] => by
    by_cases hc : c = '.' <;> simp [replaceDotDot, hasSub, List.isPrefixOf, hc]
  | c :: d :: r => by
    by_cases h : c = '.' ∧ d = '.'
    · rw [replaceDotDot, if_pos h]
      rw [hasSub]
      have h1 : (['.', '.'] : Str).isPrefixOf ('_' :: replaceDotDot r) = false := by
        simp [List.isPrefixOf]
      rw [h1, hasSub_dotdot_replaceDotDot r]
      rfl
    · rw [replaceDotDot, if_neg h]
      rw [hasSub]
      have h1 : (['.', '.'] : Str).isPrefixOf (c :: replaceDotDot (d :: r)) = false := by
        by_cases hc : c = '.'
        · have hd : d ≠ '.' := by
            intro hd
            exact h ⟨hc, hd⟩
          have hhead : (replaceDotDot (d :: r)).head? ≠ some '.' := by
            rcases head?_replaceDotDot (d :: r) with h2 | h2 <;> rw [h2] <;> simp [hd]
          subst hc
          simp only [List.isPrefixOf, Bool.and_eq_false_iff]
          right
          cases hrd : replaceDotDot (d :: r) with
          | nil => rfl
          | cons e t =>
            have he : e ≠ '.' := by
              intro he
              rw [hrd] at hhead
              exact hhead (by simp [he])
            simp [List.isPrefixOf, Ne.symm he]
        · simp [List.isPrefixOf, Ne.symm hc]
      rw [h1, hasSub_dotdot_replaceDotDot (d :: r)]
      rfl

theorem head?_dropWhile_not (p : Char → Bool) :
    ∀ l : Str, ∀ c, (l.dropWhile p).head? = some c → p c = false
  | [], c => by simp [List.dropWhile]
  | a :: t, c => by
    by_cases ha : p a
    · rw [List.dropWhile_cons_of_pos ha]
      exact head?_dropWhile_not p t c
    · rw [List.dropWhile_cons_of_neg ha]
      intro h
      simp at h
      subst h
      simpa using ha

/-- Lemma: `dropEdge p s` is a prefix of `s.dropWhile p`, hence its head (when any)
also fails `p`. -/
theorem head?_dropEdge (p : Char → Bool) (s : Str) :
    ∀ c, (dropEdge p s).head? = some c → p c = false := by
  intro c hc
  unfold dropEdge at hc
  obtain ⟨w, hw⟩ : (s.dropWhile p).reverse.dropWhile p <:+ (s.dropWhile p).reverse :=
    List.dropWhile_suffix p
  have hA : s.dropWhile p
      = ((s.dropWhile p).reverse.dropWhile p).reverse ++ w.reverse := by
    have := congrArg List.reverse hw
    simpa [List.reverse_append] using this.symm
  have hhead : (s.dropWhile p).head? = some c := by
    rw [hA, List.head?_append, hc]
    rfl
  exact head?_dropWhile_not p s c hhead

/-- The last character of `dropEdge p s` (when any) fails `p`. -/
theorem getLast?_dropEdge (p : Char → Bool) (s : Str) :
    ∀ c, (dropEdge p s).getLast? = some c → p c = false := by
  intro c hc
  unfold dropEdge at hc
  rw [List.getLast?_reverse] at hc
  exact head?_dropWhile_not p (s.dropWhile p).reverse c hc

/-- Every character of `dropEdge p s` is a character of `s`. -/
theorem mem_dropEdge (p : Char → Bool) (s : Str) :
    ∀ c ∈ dropEdge p s, c ∈ s := by
  intro c hc
  unfold dropEdge at hc
  rw [List.mem_reverse] at hc
  have h1 : c ∈ (s.dropWhile p).reverse := (List.dropWhile_sublist p).subset hc
  rw [List.mem_reverse] at h1
  exact (List.dropWhile_sublist p).subset h1

/-- Shared helper: the source's per-character replacement loop followed by
trim and double-dot collapse equals the three-pass composition. -/
theorem sanitize_passes_eq (s : Str) :
    sanitize_dir_name s = replaceDotDot (trimDots (substituteDenylist s)) := by
  unfold sanitize_dir_name substituteDenylist
  rw [foldl_replaceChar_eq_map]

theorem mem_substituteDenylist (s : Str) :
    ∀ c ∈ substituteDenylist s, c ∉ problematic_chars := by
  intro c hc
  unfold substituteDenylist at hc
  rcases List.mem_map.mp hc with ⟨a, _, ha⟩
  by_cases h : a ∈ problematic_chars
  · rw [if_pos h] at ha
    rw [← ha]
    decide
  · rw [if_neg h] at ha
    rw [← ha]
    exact h

theorem takeWhile_eq_nil_of_head? (p : Char → Bool) (l : Str)
    (h : ∀ c, l.head? = some c → p c = false) : l.takeWhile p = [] := by
  cases l with
  | nil => rfl
  | cons a t =>
    have ha := h a rfl
    simp [List.takeWhile_cons, ha]

/-- Claim C2: the path-segment sanitizer is total (it is a Lean function on
all of `Str`), and for every input string the output contains no character
of the denylist, no leading dot, no trailing dot, and no internal
two-character dot-dot sequence. -/
theorem sanitize_dir_name_output_safe (s : Str) :
    (sanitize_dir_name s).all (fun c => !problematic_chars.contains c) = true
  ∧ (sanitize_dir_name s).takeWhile isDotChar = []
  ∧ (sanitize_dir_name s).reverse.takeWhile isDotChar = []
  ∧ hasSub ['.', '.'] (sanitize_dir_name s) = false := by
  rw [sanitize_passes_eq]
  refine ⟨?_, ?_, ?_, ?_⟩
  · rw [List.all_eq_true]
    intro c hc
    rcases mem_replaceDotDot _ c hc with h1 | h1
    · have h2 : c ∈ substituteDenylist s := mem_dropEdge _ _ c h1
      have h3 := mem_substituteDenylist s c h2
      simp [List.elem_iff, h3]
    · rw [h1]
      decide
  · refine takeWhile_eq_nil_of_head? _ _ ?_
    intro c hc
    rcases head?_replaceDotDot (trimDots (substituteDenylist s)) with h1 | h1
    · rw [hc] at h1
      exact head?_dropEdge _ _ c h1.symm
    · rw [hc] at h1
      have : c = '_' := by
        have h2 := h1.symm
        simp at h2
        exact h2.symm
      rw [this]
      decide
  · refine takeWhile_eq_nil_of_head? _ _ ?_
    intro c hc
    rw [List.head?_reverse] at hc
    rcases getLast?_replaceDotDot (trimDots (substituteDenylist s)) with h1 | h1
    · rw [hc] at h1
      exact getLast?_dropEdge _ _ c h1.symm
    · rw [hc] at h1
      have : c = '_' := by
        have h2 := h1.symm
        simp at h2
        exact h2.symm
      rw [this]
      decide
  · exact hasSub_dotdot_replaceDotDot _

/-- Claim C3: `sanitize_dir_name` computes exactly the composition of three
passes, in order: substitute every denylisted character by an underscore,
then trim leading and trailing literal dots, then replace every occurrence
of the two-character sequence dot-dot by a single underscore. -/
theorem sanitize_dir_name_eq_three_passes (s : Str) :
    sanitize_dir_name s = replaceDotDot (trimDots (substituteDenylist s)) :=
  sanitize_passes_eq s

/- ===== Task record data model and codec ===== -/

inductive TaskStatus
  | TODO
  | DOING
  | DONE
deriving DecidableEq

/-- Error taxonomy of the specification (section 7).  The Rust code carries
`anyhow` errors; the model keeps only the kind. -/
inductive TdError
  | configError
  | formatError
  | ioError
deriving DecidableEq

deriving instance DecidableEq for Except

/-- In-memory task metadata (`TaskMetadata` in main.rs).

`created_at`/`updated_at` model `DateTime<Utc>` values by their canonical
RFC 3339 rendering, and `id` models a `Uuid` by its canonical string: both
Rust types are in bijection with their canonical strings and serde_yaml
serializes them exactly as those strings, so the rendered string is a
faithful shallow embedding of the in-memory value. -/
structure TaskMetadata where
  title : Str
  status : TaskStatus
  created_at : Str
  updated_at : Option Str
  id : Str
  tags : List Str
deriving DecidableEq

structure TaskRecord where
  metadata : TaskMetadata
  description : Str
deriving DecidableEq

def titleKey : Str := ['t', 'i', 't', 'l', 'e']

def statusKey : Str := ['s', 't', 'a', 't', 'u', 's']

def createdKey : Str := ['c', 'r', 'e', 'a', 't', 'e', 'd', '_', 'a', 't']

def updatedKey : Str := ['u', 'p', 'd', 'a', 't', 'e', 'd', '_', 'a', 't']

def idKey : Str := ['i', 'd']

/-- The line introducing the tags block: `tags:`. -/
def tagsHeaderLine : Str := ['t', 'a', 'g', 's', ':']

/-- Block-sequence item marker `- `. -/
def dashItem : Str := ['-', ' ']

def colonSp : Str := [':', ' ']

/-- The frontmatter delimiter line: three hyphens followed by a newline. -/
def delim : Str := ['-', '-', '-', '\n']

def dashes : Str := ['-', '-', '-']

/-- Lowercase status tokens (serde `rename_all = "lowercase"`). -/
def statusStr : TaskStatus → Str
  | .TODO => ['t', 'o', 'd', 'o']
  | .DOING => ['d', 'o', 'i', 'n', 'g']
  | .DONE => ['d', 'o', 'n', 'e']

def kvLine (key v : Str) : Str := key ++ colonSp ++ v

/-- Modelled from the spec (sections 4.3 and 6) and serde derive semantics:
the lines serde_yaml emits for a `TaskMetadata` value, in struct field
order, omitting `updated_at` when absent and `tags` when empty; plain-style
scalars (the `valueOk` class below delimits the values for which plain
style is what serde_yaml actually emits). -/
def metaLines (m : TaskMetadata) : List Str :=
  kvLine titleKey m.title ::
  kvLine statusKey (statusStr m.status) ::
  kvLine createdKey m.created_at ::
  ((match m.updated_at with
    | none => []
    | some u => [kvLine updatedKey u])
   ++ kvLine idKey m.id ::
      (if m.tags = [] then []
       else tagsHeaderLine :: m.tags.map (fun t => dashItem ++ t)))

def unlines : List Str → Str
  | [] => []
  | l :: ls => l ++ '\n' :: unlines ls

/-- Modelled serde_yaml serialization of `TaskMetadata` (every emitted line
is newline-terminated). -/
def encodeMeta (m : TaskMetadata) : Str := unlines (metaLines m)

def stripPfx (p s : Str) : Option Str :=
  match p, s with
  | [], s => some s
  | _ :: _, [] => none
  | a :: p, b :: s => if a = b then stripPfx p s else none

def splitOnChar (sep : Char) : Str → List Str
  | [] => [[]]
  | c :: r =>
    if c = sep then [] :: splitOnChar sep r
    else
      match splitOnChar sep r with
      | [] => [[c]]
      | l :: ls => (c :: l) :: ls

/-- Split a newline-terminated text into its lines; fails when the text is
nonempty and does not end with a newline. -/
def toLines (s : Str) : Option (List Str) :=
  let parts := splitOnChar '\n' s
  if parts.getLast? = some [] then some parts.dropLast else none

def keyLine (key : Str) : List Str → Option (Str × List Str)
  | [] => none
  | l :: ls => (stripPfx (key ++ colonSp) l).map (fun v => (v, ls))

def parseStatus (v : Str) : Option TaskStatus :=
  if v = statusStr .TODO then some .TODO
  else if v = statusStr .DOING then some .DOING
  else if v = statusStr .DONE then some .DONE
  else none

def tagItems : List Str → Option (List Str)
  | [] => some []
  | l :: ls =>
    match stripPfx dashItem l with
    | none => none
    | some t =>
      match tagItems ls with
      | none => none
      | some ts => some (t :: ts)

/-- Modelled serde_yaml deserialization of `TaskMetadata`: accepts the
canonical field layout the serializer emits (`updated_at` and `tags`
optional), yielding the parsed record. -/
def parseFields (ls : List Str) : Option TaskMetadata :=
  match keyLine titleKey ls with
  | none => none
  | some (title, ls1) =>
    match keyLine statusKey ls1 with
    | none => none
    | some (sv, ls2) =>
      match parseStatus sv with
      | none => none
      | some status =>
        match keyLine createdKey ls2 with
        | none => none
        | some (created, ls3) =>
          let up : Option Str × List Str :=
            match keyLine updatedKey ls3 with
            | some (u, ls4) => (some u, ls4)
            | none => (none, ls3)
          match keyLine idKey up.2 with
          | none => none
          | some (idv, ls5) =>
            match ls5 with
            | [] => some ⟨title, status, created, up.1, idv, []⟩
            | lt :: lrest =>
              if lt = tagsHeaderLine then
                match tagItems lrest with
                | none => none
                | some tags => some ⟨title, status, created, up.1, idv, tags⟩
              else none

def parseMeta (s : Str) : Option TaskMetadata := (toLines s).bind parseFields

/-- Rust `str::find(pat)`: index of the first occurrence of `pat`. -/
def findSub (pat : Str) : Str → Option Nat
  | [] => if pat.isPrefixOf [] then some 0 else none
  | c :: t => if pat.isPrefixOf (c :: t) then some 0 else (findSub pat t).map (fun n => n + 1)

/-- Embeds `Task::from_str` from main.rs: require the opening delimiter line, find
the first closing delimiter line after it, parse the text between as the
metadata block, and take everything after the closing delimiter verbatim as
the description. -/
def TaskRecord.from_str (content : Str) : Except TdError TaskRecord :=
  if delim.isPrefixOf content then
    match findSub delim (content.drop 4) with
    | none => .error .formatError
    | some i =>
      match parseMeta ((content.drop 4).take i) with
      | some m => .ok ⟨m, (content.drop 4).drop (i + 4)⟩
      | none => .error .formatError
  else .error .formatError

/-- Embeds `Task::to_string` from main.rs: opening delimiter, serialized metadata,
closing delimiter, then the raw description.  (The Rust function returns
`Result` but can only fail inside serde_yaml serialization, which cannot
fail for this well-typed struct; the model is total.) -/
def TaskRecord.to_string (t : TaskRecord) : Str :=
  delim ++ encodeMeta t.metadata ++ delim ++ t.description

structure AddArgs where
  title : Str
  desc : Option Str
  tags : Option Str
deriving DecidableEq

/-- Rust `str::trim`: drop whitespace from both ends. -/
def trimWs (s : Str) : Str := dropEdge Char.isWhitespace s

/-- Embeds `Task::new` from main.rs: status TODO, `created_at` the current time,
a fresh id, tags split on commas and trimmed (empty when the argument is
absent), no `updated_at`, description defaulting to the empty string.
`now` and `freshId` model the ambient effects `Utc::now()` and
`Uuid::new_v4()` as their canonical strings. -/
def TaskRecord.new (args : AddArgs) (now : Str) (freshId : Str) : TaskRecord :=
  { metadata :=
      { title := args.title
        status := .TODO
        created_at := now
        updated_at := none
        id := freshId
        tags :=
          match args.tags with
          | some s => (splitOnChar ',' s).map trimWs
          | none => [] }
    description := args.desc.getD [] }

/-- Characters serde_yaml keeps in plain (unquoted) scalar style in the
positions we use them. -/
def plainChar (c : Char) : Bool :=
  c.isAlphanum || [' ', '-', '_', '.', '/', ':', 'T', 'Z', '+'].contains c

/-- Values for which the modelled plain-style rendering coincides with what
serde_yaml emits: nonempty, starting with an alphanumeric character, all
characters plain. -/
def valueOk : Str → Bool
  | [] => false
  | c :: r => c.isAlphanum && (c :: r).all plainChar

def noDashesSuffix (v : Str) : Bool := !(dashes.isSuffixOf v)

def validMeta (m : TaskMetadata) : Bool :=
  valueOk m.title && valueOk m.created_at && valueOk m.id
  && (match m.updated_at with | none => true | some u => valueOk u)
  && m.tags.all valueOk

/-- A valid in-memory task record: its field values lie in the class where
the modelled codec is a faithful picture of the Rust one.  The description
is unconstrained. -/
def validTask (t : TaskRecord) : Bool := validMeta t.metadata

/-- The amendment forced by the counterexample: additionally no field value
ends with three hyphens (otherwise its serialized line ends in a closing
delimiter). -/
def safeMeta (m : TaskMetadata) : Bool :=
  validMeta m && noDashesSuffix m.title && noDashesSuffix m.created_at
  && noDashesSuffix m.id
  && (match m.updated_at with | none => true | some u => noDashesSuffix u)
  && m.tags.all noDashesSuffix

def safeTask (t : TaskRecord) : Bool := safeMeta t.metadata

/- ===== Round-trip lemmas for the codec ===== -/

theorem tagItems_map : ∀ tags : List Str,
    tagItems (tags.map (fun t => '-' :: ' ' :: t)) = some tags
  | [] => rfl
  | t :: ts => by
    have ih := tagItems_map ts
    have hp : stripPfx dashItem ('-' :: ' ' :: t) = some t := rfl
    simp [List.map_cons, tagItems, hp, ih]

theorem parseFields_metaLines (m : TaskMetadata) :
    parseFields (metaLines m) = some m := by
  obtain ⟨title, status, created, updated, idv, tags⟩ := m
  cases updated with
  | none =>
    cases tags with
    | nil => cases status <;> rfl
    | cons t ts =>
      have htag := tagItems_map (t :: ts)
      simp only [List.map_cons] at htag
      cases status <;>
        simp [parseFields, metaLines, keyLine, kvLine, stripPfx, titleKey, statusKey,
          createdKey, updatedKey, idKey, colonSp, tagsHeaderLine, dashItem, parseStatus,
          statusStr, htag]
  | some u =>
    cases tags with
    | nil => cases status <;> rfl
    | cons t ts =>
      have htag := tagItems_map (t :: ts)
      simp only [List.map_cons] at htag
      cases status <;>
        simp [parseFields, metaLines, keyLine, kvLine, stripPfx, titleKey, statusKey,
          createdKey, updatedKey, idKey, colonSp, tagsHeaderLine, dashItem, parseStatus,
          statusStr, htag]

theorem splitOnChar_append (sep : Char) :
    ∀ l rest : Str, sep ∉ l →
      splitOnChar sep (l ++ sep :: rest) = l :: splitOnChar sep rest
  | [], rest, _ => by simp [splitOnChar]
  | c :: l, rest, h => by
    have hc : c ≠ sep := by
      intro hc
      exact h (by simp [hc])
    have ih := splitOnChar_append sep l rest (fun hm => h (List.mem_cons_of_mem c hm))
    have ih2 : List.append l (sep :: rest) = l ++ sep :: rest := rfl
    simp only [List.cons_append, splitOnChar, if_neg hc, ih2, ih]

theorem splitOnChar_unlines :
    ∀ ls : List Str, (∀ l ∈ ls, '\n' ∉ l) →
      splitOnChar '\n' (unlines ls) = ls ++ [[]]
  | [], _ => rfl
  | l :: ls, h => by
    have ih := splitOnChar_unlines ls (fun x hx => h x (List.mem_cons_of_mem l hx))
    have hl : '\n' ∉ l := h l (List.mem_cons_self l ls)
    simp only [unlines, splitOnChar_append '\n' l (unlines ls) hl, ih, List.cons_append]

theorem toLines_unlines (ls : List Str) (h : ∀ l ∈ ls, '\n' ∉ l) :
    toLines (unlines ls) = some ls := by
  unfold toLines
  rw [splitOnChar_unlines ls h]
  simp [List.getLast?_concat, List.dropLast_concat]

theorem parseMeta_encodeMeta (m : TaskMetadata)
    (h : ∀ l ∈ metaLines m, '\n' ∉ l) :
    parseMeta (encodeMeta m) = some m := by
  unfold parseMeta encodeMeta
  rw [toLines_unlines (metaLines m) h]
  simpa using parseFields_metaLines m

theorem all_plainChar_no_nl {v : Str} (hv : v.all plainChar = true) : '\n' ∉ v := by
  intro hm
  have h1 := List.all_eq_true.mp hv '\n' hm
  revert h1
  decide

theorem valueOk_no_nl {v : Str} (hv : valueOk v = true) : '\n' ∉ v := by
  cases v with
  | nil => simp
  | cons c r =>
    have hv2 : (c.isAlphanum && (c :: r).all plainChar) = true := hv
    rw [Bool.and_eq_true] at hv2
    exact all_plainChar_no_nl hv2.2

theorem isPrefixOf_dashes_append_sp :
    ∀ w r : Str, dashes.isPrefixOf w = false →
      dashes.isPrefixOf (w ++ ' ' :: r) = false
  | [], r, _ => by simp [dashes, List.isPrefixOf]
  | [a], r, _ => by simp [dashes, List.isPrefixOf]
  | a :: b :: w, r, h => by
    cases w with
    | nil => simp [dashes, List.isPrefixOf]
    | cons e w2 =>
      simp [dashes, List.isPrefixOf] at h ⊢
      tauto

theorem bandL {a b : Bool} (h : (a && b) = true) : a = true := by
  rw [Bool.and_eq_true] at h
  exact h.1

theorem bandR {a b : Bool} (h : (a && b) = true) : b = true := by
  rw [Bool.and_eq_true] at h
  exact h.2

theorem bnotT {a : Bool} (h : (!a) = true) : a = false := by
  cases a
  · rfl
  · exact absurd h (by decide)

theorem dashes_not_suffix_kvLine (k v : Str) (hv : dashes.isSuffixOf v = false) :
    dashes.isSuffixOf (kvLine k v) = false := by
  have hrev : (kvLine k v).reverse = v.reverse ++ ' ' :: (':' :: k.reverse) := by
    simp [kvLine, colonSp]
  have hv2 : dashes.isPrefixOf v.reverse = false := hv
  have hgoal : dashes.isPrefixOf (kvLine k v).reverse = false := by
    rw [hrev]
    exact isPrefixOf_dashes_append_sp _ _ hv2
  exact hgoal

theorem dashes_not_suffix_tagLine (t : Str) (ht : dashes.isSuffixOf t = false) :
    dashes.isSuffixOf ('-' :: ' ' :: t) = false := by
  have hrev : ('-' :: ' ' :: t).reverse = t.reverse ++ ' ' :: ('-' :: []) := by
    simp
  have ht2 : dashes.isPrefixOf t.reverse = false := ht
  have hgoal : dashes.isPrefixOf ('-' :: ' ' :: t).reverse = false := by
    rw [hrev]
    exact isPrefixOf_dashes_append_sp _ _ ht2
  exact hgoal

theorem no_nl_kvLine {k v : Str} (hk : '\n' ∉ k) (hv : '\n' ∉ v) :
    '\n' ∉ kvLine k v := by
  intro hm
  unfold kvLine at hm
  rcases List.mem_append.mp hm with h1 | h1
  · rcases List.mem_append.mp h1 with h2 | h2
    · exact hk h2
    · revert h2
      decide
  · exact hv h1

/-- Under `safeMeta`, every serialized metadata line contains no newline and
does not end with three hyphens. -/
theorem metaLines_good (m : TaskMetadata) (h : safeMeta m = true) :
    ∀ l ∈ metaLines m, '\n' ∉ l ∧ dashes.isSuffixOf l = false := by
  obtain ⟨title, status, created, updated, idv, tags⟩ := m
  have hstags := List.all_eq_true.mp (bandR h)
  have h1 := bandL h
  have hsu := bandR h1
  have h2 := bandL h1
  have hsi := bnotT (bandR h2)
  have h3 := bandL h2
  have hsc := bnotT (bandR h3)
  have h4 := bandL h3
  have hst := bnotT (bandR h4)
  have hvalid := bandL h4
  have hvtags := List.all_eq_true.mp (bandR hvalid)
  have v1 := bandL hvalid
  have hvu := bandR v1
  have v2 := bandL v1
  have hvi := bandR v2
  have v3 := bandL v2
  have hvc := bandR v3
  have hvt := bandL v3
  intro l hl
  simp only [metaLines, List.mem_cons, List.mem_append] at hl
  rcases hl with hl | hl | hl | hl
  · subst hl
    exact ⟨no_nl_kvLine (by decide) (valueOk_no_nl hvt), dashes_not_suffix_kvLine _ _ hst⟩
  · subst hl
    cases status <;> exact ⟨by decide, by decide⟩
  · subst hl
    exact ⟨no_nl_kvLine (by decide) (valueOk_no_nl hvc), dashes_not_suffix_kvLine _ _ hsc⟩
  · rcases hl with hl | hl
    · cases updated with
      | none => simp at hl
      | some u =>
        simp only [List.mem_singleton] at hl
        subst hl
        exact ⟨no_nl_kvLine (by decide) (valueOk_no_nl hvu), dashes_not_suffix_kvLine _ _ (bnotT hsu)⟩
    · rcases hl with hl | hl
      · subst hl
        exact ⟨no_nl_kvLine (by decide) (valueOk_no_nl hvi), dashes_not_suffix_kvLine _ _ hsi⟩
      · by_cases htags : tags = []
        · subst htags
          simp at hl
        · rw [if_neg htags] at hl
          rcases List.mem_cons.mp hl with hl | hl
          · subst hl
            exact ⟨by decide, by decide⟩
          · rcases List.mem_map.mp hl with ⟨t, hts, hteq⟩
            have hnlt : '\n' ∉ dashItem ++ t := by
              intro hm
              rcases List.mem_append.mp hm with h2 | h2
              · revert h2
                decide
              · exact valueOk_no_nl (hvtags t hts) h2
            have hsuft : dashes.isSuffixOf (dashItem ++ t) = false := by
              have := dashes_not_suffix_tagLine t (bnotT (hstags t hts))
              simpa [dashItem] using this
            rw [← hteq]
            exact ⟨hnlt, hsuft⟩

theorem neTrue_of_eq_false {a : Bool} (h : a = false) : ¬(a = true) := by
  rw [h]
  decide

theorem isSuffixOf_cons_of {c : Char} {l : Str}
    (h : dashes.isSuffixOf l = true) : dashes.isSuffixOf (c :: l) = true := by
  have h2 : dashes.reverse.isPrefixOf l.reverse = true := h
  have h3 : dashes.reverse.isPrefixOf (c :: l).reverse = true := by
    rw [List.isPrefixOf_iff_prefix] at h2 ⊢
    rw [List.reverse_cons]
    exact h2.trans (List.prefix_append _ _)
  exact h3

theorem findSub_line : ∀ l rest : Str, '\n' ∉ l → dashes.isSuffixOf l = false →
    findSub delim (l ++ '\n' :: rest)
      = (findSub delim rest).map (fun n => n + (l.length + 1))
  | [], rest, _, _ => by
    have hp : delim.isPrefixOf ('\n' :: rest) = false := by
      simp [delim, List.isPrefixOf]
    cases hfs : findSub delim rest <;> simp [findSub, hp, hfs]
  | c :: l, rest, hnl, hsuf => by
    have hnl2 : '\n' ∉ l := fun hm => hnl (List.mem_cons_of_mem c hm)
    have hsuf2 : dashes.isSuffixOf l = false := by
      cases hls : dashes.isSuffixOf l
      · rfl
      · rw [isSuffixOf_cons_of hls] at hsuf
        exact absurd hsuf (by decide)
    have ih := findSub_line l rest hnl2 hsuf2
    have hp : delim.isPrefixOf (c :: (l ++ '\n' :: rest)) = false := by
      cases l with
      | nil => simp [delim, List.isPrefixOf]
      | cons d l2 =>
        cases l2 with
        | nil => simp [delim, List.isPrefixOf]
        | cons e l3 =>
          cases l3 with
          | nil =>
            have hsx : dashes.isSuffixOf [c, d, e] = false := hsuf
            simp [List.isSuffixOf, List.isPrefixOf, dashes] at hsx
            simp [delim, List.isPrefixOf]
            tauto
          | cons f l4 =>
            have hf : ¬('\n' = f) := by
              intro hf
              exact hnl (by simp [← hf])
            simp [delim, List.isPrefixOf, hf]
    have hstep : findSub delim ((c :: l) ++ '\n' :: rest)
        = (findSub delim (l ++ '\n' :: rest)).map (fun n => n + 1) := by
      rw [List.cons_append, findSub, if_neg (neTrue_of_eq_false hp)]
    rw [hstep, ih]
    cases hfs : findSub delim rest <;> simp [List.length_cons] <;> try omega

theorem findSub_unlines : ∀ (ls : List Str) (rest : Str),
    (∀ l ∈ ls, '\n' ∉ l ∧ dashes.isSuffixOf l = false) →
    delim.isPrefixOf rest = true →
    findSub delim (unlines ls ++ rest) = some (unlines ls).length
  | [], rest, _, hr => by
    cases rest with
    | nil => exact absurd hr (by decide)
    | cons c t =>
      simp only [unlines, List.nil_append]
      rw [findSub, if_pos hr]
      rfl
  | l :: ls, rest, h, hr => by
    have ih := findSub_unlines ls rest (fun x hx => h x (List.mem_cons_of_mem l hx)) hr
    obtain ⟨hnl, hsuf⟩ := h l (List.mem_cons_self l ls)
    have hshape : unlines (l :: ls) ++ rest = l ++ '\n' :: (unlines ls ++ rest) := by
      simp [unlines, List.append_assoc]
    rw [hshape, findSub_line l (unlines ls ++ rest) hnl hsuf, ih]
    simp [unlines, List.length_append]
    omega

theorem isPrefixOf_append_self : ∀ p s : Str, p.isPrefixOf (p ++ s) = true
  | [], s => by cases s <;> rfl
  | a :: p, s => by simp [List.isPrefixOf, isPrefixOf_append_self p s]

/-- Core round-trip: decoding an encoded safe task recovers it exactly. -/
theorem from_str_to_string (t : TaskRecord) (h : safeTask t = true) :
    TaskRecord.from_str (TaskRecord.to_string t) = .ok t := by
  obtain ⟨m, desc⟩ := t
  have hg : ∀ l ∈ metaLines m, '\n' ∉ l ∧ dashes.isSuffixOf l = false := metaLines_good m h
  have hnl : ∀ l ∈ metaLines m, '\n' ∉ l := fun l hl => (hg l hl).1
  have hshape : TaskRecord.to_string ⟨m, desc⟩
      = delim ++ (encodeMeta m ++ (delim ++ desc)) := by
    simp [TaskRecord.to_string, List.append_assoc]
  rw [hshape]
  unfold TaskRecord.from_str
  rw [if_pos (isPrefixOf_append_self delim _)]
  have hdrop : (delim ++ (encodeMeta m ++ (delim ++ desc))).drop 4
      = encodeMeta m ++ (delim ++ desc) := by
    rw [show (4 : Nat) = delim.length from rfl, List.drop_left]
  rw [hdrop]
  have hfind : findSub delim (encodeMeta m ++ (delim ++ desc))
      = some (encodeMeta m).length := by
    exact findSub_unlines (metaLines m) (delim ++ desc) hg (isPrefixOf_append_self delim desc)
  rw [hfind]
  have htake : (encodeMeta m ++ (delim ++ desc)).take (encodeMeta m).length
      = encodeMeta m := List.take_left _ _
  have hdrop2 : (encodeMeta m ++ (delim ++ desc)).drop ((encodeMeta m).length + 4)
      = desc := by
    have h1 : (encodeMeta m ++ (delim ++ desc)).drop ((encodeMeta m).length + 4)
        = ((encodeMeta m ++ (delim ++ desc)).drop (encodeMeta m).length).drop 4 := by
      rw [List.drop_drop, Nat.add_comm]
    rw [h1, List.drop_left, show (4 : Nat) = delim.length from rfl, List.drop_left]
  simp only [htake, parseMeta_encodeMeta m hnl, hdrop2]

/- ===== Claims C1 and C4 ===== -/

/-- Canonical RFC 3339 rendering of a sample `DateTime<Utc>` value. -/
def sampleTime : Str :=
  ['2', '0', '2', '4', '-', '0', '1', '-', '0', '1', 'T', '0', '0', ':', '0',
   '0', ':', '0', '0', 'Z']

/-- Canonical string of a sample `Uuid`. -/
def sampleUuid : Str :=
  ['f', '4', '7', 'a', 'c', '1', '0', 'b', '-', '5', '8', 'c', 'c', '-', '4',
   '3', '7', '2', '-', 'a', '5', '6', '7', '-', '0', 'e', '0', '2', 'b', '2',
   'c', '3', 'd', '4', '7', '9']

/-- A well-behaved task record, with a description that itself contains a
delimiter-looking line. -/
def sampleTask : TaskRecord :=
  { metadata :=
      { title := ['W', 'r', 'i', 't', 'e', ' ', 't', 'e', 's', 't', 's']
        status := .TODO
        created_at := sampleTime
        updated_at := some sampleTime
        id := sampleUuid
        tags := [['a'], ['b', 'c']] }
    description := ['x', '\n', '-', '-', '-', '\n', 'y'] }

/-- A task record that is valid in memory (any Rust `Task` is), whose title
ends in three hyphens: its serialized title line ends in a closing
delimiter line. -/
def cexTask : TaskRecord :=
  { metadata :=
      { title := ['x', '-', '-', '-']
        status := .TODO
        created_at := sampleTime
        updated_at := none
        id := sampleUuid
        tags := [] }
    description := [] }

/-- Claim C1 is false as stated: `cexTask` is a valid in-memory task record
(its field values are exactly what serde_yaml renders in plain style), yet
decoding its encoding does not return it — decode fails with a format
error, because the encoded title line `title: x---` ends in what `from_str`
takes to be the closing delimiter. -/
theorem roundTrip_counterexample :
    validTask cexTask = true
  ∧ TaskRecord.from_str (TaskRecord.to_string cexTask) ≠ .ok cexTask
  ∧ TaskRecord.from_str (TaskRecord.to_string cexTask) = .error .formatError :=
  ⟨by decide, by decide, by decide⟩

/-- Claim C1 (amended): for every valid task record none of whose metadata
field values ends in three hyphens (`safeTask`), decoding the encoding
yields the record back in every field, and encoding is a left inverse of
decoding on such encoder outputs. -/
theorem roundTrip_amended (t : TaskRecord) (h : safeTask t = true) :
    TaskRecord.from_str (TaskRecord.to_string t) = .ok t
  ∧ ∀ t2 : TaskRecord, TaskRecord.from_str (TaskRecord.to_string t) = .ok t2 →
      TaskRecord.to_string t2 = TaskRecord.to_string t := by
  refine ⟨from_str_to_string t h, ?_⟩
  intro t2 h2
  rw [from_str_to_string t h] at h2
  injection h2 with h3
  rw [h3]

theorem roundTrip_amended_witness :
    safeTask sampleTask = true
  ∧ TaskRecord.from_str (TaskRecord.to_string sampleTask) = .ok sampleTask :=
  ⟨by decide, (roundTrip_amended sampleTask (by decide)).1⟩

/-- Claim C4: decoding fails with a format error whenever the content does
not begin with the delimiter line, and whenever no closing delimiter line
follows the opening one; it succeeds only when both delimiters are present
and the text strictly between them parses as the metadata block (the
description being everything after the closing delimiter, verbatim). -/
theorem from_str_error_conditions (content : Str) :
    (delim.isPrefixOf content = false →
      TaskRecord.from_str content = .error .formatError)
  ∧ (delim.isPrefixOf content = true → findSub delim (content.drop 4) = none →
      TaskRecord.from_str content = .error .formatError)
  ∧ (∀ t : TaskRecord, TaskRecord.from_str content = .ok t →
      delim.isPrefixOf content = true
      ∧ ∃ i, findSub delim (content.drop 4) = some i
          ∧ parseMeta ((content.drop 4).take i) = some t.metadata
          ∧ t.description = (content.drop 4).drop (i + 4)) := by
  refine ⟨?_, ?_, ?_⟩
  · intro h
    unfold TaskRecord.from_str
    rw [if_neg (neTrue_of_eq_false h)]
  · intro h1 h2
    unfold TaskRecord.from_str
    rw [if_pos h1, h2]
  · intro t ht
    unfold TaskRecord.from_str at ht
    by_cases h1 : delim.isPrefixOf content = true
    · rw [if_pos h1] at ht
      refine ⟨h1, ?_⟩
      cases hf : findSub delim (content.drop 4) with
      | none =>
        rw [hf] at ht
        simp at ht
      | some i =>
        simp only [hf] at ht
        cases hp : parseMeta ((content.drop 4).take i) with
        | none =>
          simp only [hp] at ht
          simp at ht
        | some m2 =>
          simp only [hp] at ht
          have ht2 : (⟨m2, (content.drop 4).drop (i + 4)⟩ : TaskRecord) = t := by
            injection ht with h3
          rw [← ht2]
          exact ⟨i, rfl, hp, rfl⟩
    · rw [if_neg h1] at ht
      simp at ht

theorem from_str_error_conditions_witness :
    TaskRecord.from_str ['x', 'y'] = .error .formatError :=
  (from_str_error_conditions ['x', 'y']).1 (by decide)

/- ===== Ambient environment and filesystem model ===== -/

/-- A filesystem path as a list of segments. -/
abbrev FsPath := List Str

/-- Ambient process environment.

`home` models `dirs::home_dir()` (`none` when the home directory cannot be
determined).  `originUrl` collapses `Repository::open_from_env` followed by
`find_remote("origin")` and `Remote::url`: it is `some u` exactly when an
enclosing repository exists, has a remote named `origin`, and that remote
has a URL `u`; any of the three lookups failing yields `none`.  `now` and
`freshId` are the canonical strings of `Utc::now()` and `Uuid::new_v4()`
for this invocation. -/
structure Env where
  home : Option FsPath
  originUrl : Option Str
  now : Str
  freshId : Str

/-- Filesystem state: existing directories and files with their contents. -/
structure FS where
  dirs : List FsPath
  files : List (FsPath × Str)
deriving DecidableEq

def emptyFS : FS := { dirs := [], files := [] }

/-- The tool's namespace directory segment `.td`. -/
def tdSeg : Str := ['.', 't', 'd']

/-- The fixed file name every `add` writes: `test_file.td`. -/
def taskFileName : Str :=
  ['t', 'e', 's', 't', '_', 'f', 'i', 'l', 'e', '.', 't', 'd']

/-- Embeds `get_repo_remote` from main.rs: the sanitized origin URL, when an
enclosing repository with a URL-carrying `origin` remote exists. -/
def get_repo_remote (env : Env) : Option Str :=
  env.originUrl.map (fun u => sanitize_dir_name u)

/-- All nonempty prefixes of a path, shortest first. -/
def prefixesOf (p : FsPath) : List FsPath :=
  (List.range p.length).map (fun n => p.take (n + 1))

/-- Embeds `std::fs::create_dir_all`: create the directory and all missing
ancestors.  (The model assumes a writable filesystem, so creation cannot
fail.) -/
def createDirAll (p : FsPath) (fs : FS) : FS :=
  { fs with dirs := fs.dirs ++ (prefixesOf p).filter (fun q => decide (q ∉ fs.dirs)) }

def dirExists (d : FsPath) (fs : FS) : Bool := decide (d ∈ fs.dirs)

/-- Embeds `File::create` followed by a full write: truncate or create the file. -/
def fsWrite (fs : FS) (p : FsPath) (content : Str) : FS :=
  if (fs.files.map Prod.fst).contains p then
    { fs with files := fs.files.map (fun e => if e.1 = p then (p, content) else e) }
  else
    { fs with files := fs.files ++ [(p, content)] }

def fsRead (fs : FS) (p : FsPath) : Option Str :=
  (fs.files.find? (fun e => e.1 == p)).map (fun e => e.2)

/-- Embeds `get_project_path` from main.rs: home directory (error when absent),
then `.td`, then the sanitized origin segment when one exists; the
directory is created with all missing ancestors. -/
def get_project_path (env : Env) (fs : FS) : Except TdError (FsPath × FS) :=
  match env.home with
  | none => .error .configError
  | some h =>
    let dir := (h ++ [tdSeg]) ++
      (match get_repo_remote env with
       | none => []
       | some o => [o])
    .ok (dir, createDirAll dir fs)

/-- Embeds `add_task` from main.rs: resolve the project directory, then write the
new task's serialization to the fixed file name inside it. -/
def add_task (args : AddArgs) (env : Env) (fs : FS) : Except TdError FS :=
  match get_project_path env fs with
  | .error e => .error e
  | .ok (dir, fs1) =>
    .ok (fsWrite fs1 (dir ++ [taskFileName])
          (TaskRecord.to_string (TaskRecord.new args env.now env.freshId)))

/-- Directory-entry names directly inside `dir` (subdirectories, then
files), in the filesystem's enumeration order. -/
def childName (dir : FsPath) (p : FsPath) : Option Str :=
  if p.take dir.length = dir ∧ p.length = dir.length + 1 then p.getLast? else none

def readDir (dir : FsPath) (fs : FS) : List Str :=
  fs.dirs.filterMap (childName dir) ++ fs.files.filterMap (fun e => childName dir e.1)

/-- Rendering of a path for display, segments joined by a slash
(`PathBuf::to_str` on Unix). -/
def renderPath : FsPath → Str
  | [] => []
  | [s] => s
  | s :: t :: rest => s ++ '/' :: renderPath (t :: rest)

/-- The diagnostic line `ls command` printed by the `Ls` arm of `main`. -/
def lsCommandLine : Str := ['l', 's', ' ', 'c', 'o', 'm', 'm', 'a', 'n', 'd']

/-- The diagnostic line `ls` printed at the top of `list_task`. -/
def lsLine : Str := ['l', 's']

/-- The diagnostic line `project dir: <dir>` printed by `list_task`. -/
def projectDirLine (dir : FsPath) : Str :=
  ['p', 'r', 'o', 'j', 'e', 'c', 't', ' ', 'd', 'i', 'r', ':', ' ']
    ++ renderPath dir

/-- Embeds `list_task` from main.rs, returning the lines it prints on
stdout in order: the `ls` diagnostic, the `project dir: ...` diagnostic
(after resolving the project directory), then the name of each entry of
the resolved directory, one per line, in enumeration order. -/
def list_task (env : Env) (fs : FS) : Except TdError (List Str) :=
  match get_project_path env fs with
  | .error e => .error e
  | .ok (dir, fs1) => .ok (lsLine :: projectDirLine dir :: readDir dir fs1)

/-- Embeds the `Ls` arm of `main` (main.rs:120-123): print `ls command`,
then run `list_task`; the result is the full stdout line list of an `ls`
invocation. -/
def lsCommand (env : Env) (fs : FS) : Except TdError (List Str) :=
  match list_task env fs with
  | .error e => .error e
  | .ok lines => .ok (lsCommandLine :: lines)

/- ===== Filesystem lemmas ===== -/

def projDirOf (h : FsPath) (o : Option Str) : FsPath :=
  (h ++ [tdSeg]) ++
    (match o with
     | none => []
     | some u => [sanitize_dir_name u])

theorem get_project_path_eq (env : Env) (fs : FS) :
    get_project_path env fs
      = match env.home with
        | none => .error .configError
        | some h => .ok (projDirOf h env.originUrl,
            createDirAll (projDirOf h env.originUrl) fs) := by
  rcases env with ⟨h, o, n, i⟩
  cases h <;> cases o <;> rfl

theorem fsRead_createDirAll (d : FsPath) (fs : FS) (p : FsPath) :
    fsRead (createDirAll d fs) p = fsRead fs p := rfl

theorem find?_write_self : ∀ (l : List (FsPath × Str)) (p : FsPath) (c : Str),
    p ∈ l.map Prod.fst →
    (l.map (fun e => if e.1 = p then (p, c) else e)).find? (fun e => e.1 == p)
      = some (p, c)
  | [], p, c, h => by simp at h
  | e :: l, p, c, h => by
    by_cases he : e.1 = p
    · rw [List.map_cons, if_pos he]
      exact List.find?_cons_of_pos _ (by simp)
    · have h2 : p ∈ l.map Prod.fst := by
        rw [List.map_cons, List.mem_cons] at h
        rcases h with h3 | h3
        · exact absurd h3.symm he
        · exact h3
      rw [List.map_cons, if_neg he,
        List.find?_cons_of_neg _ (by simp [beq_iff_eq, he])]
      exact find?_write_self l p c h2

theorem find?_append_single : ∀ (l : List (FsPath × Str)) (p : FsPath) (c : Str),
    p ∉ l.map Prod.fst →
    (l ++ [(p, c)]).find? (fun e => e.1 == p) = some (p, c)
  | [], p, c, _ => by
    simp only [List.nil_append]
    exact List.find?_cons_of_pos _ (by simp)
  | e :: l, p, c, h => by
    have he : e.1 ≠ p := fun he => h (by simp [← he])
    have h2 : p ∉ l.map Prod.fst := fun hm => h (by simp [hm])
    rw [List.cons_append, List.find?_cons_of_neg _ (by simp [beq_iff_eq, he])]
    exact find?_append_single l p c h2

theorem find?_write_other : ∀ (l : List (FsPath × Str)) (p : FsPath) (c : Str)
    (q : FsPath), q ≠ p →
    (l.map (fun e => if e.1 = p then (p, c) else e)).find? (fun e => e.1 == q)
      = l.find? (fun e => e.1 == q)
  | [], _, _, _, _ => rfl
  | e :: l, p, c, q, hne => by
    have ih := find?_write_other l p c q hne
    by_cases he : e.1 = p
    · rw [List.map_cons, if_pos he,
        List.find?_cons_of_neg _ (by simp [beq_iff_eq]; exact fun h => hne h.symm),
        List.find?_cons_of_neg _ (by simp [beq_iff_eq, he]; exact fun h => hne h.symm)]
      exact ih
    · by_cases hq : e.1 = q
      · rw [List.map_cons, if_neg he,
          List.find?_cons_of_pos _ (by simp [beq_iff_eq, hq]),
          List.find?_cons_of_pos _ (by simp [beq_iff_eq, hq])]
      · rw [List.map_cons, if_neg he,
          List.find?_cons_of_neg _ (by simp [beq_iff_eq, hq]),
          List.find?_cons_of_neg _ (by simp [beq_iff_eq, hq])]
        exact ih

theorem find?_append_single_other : ∀ (l : List (FsPath × Str)) (p : FsPath)
    (c : Str) (q : FsPath), q ≠ p →
    (l ++ [(p, c)]).find? (fun e => e.1 == q) = l.find? (fun e => e.1 == q)
  | [], p, c, q, hne => by
    simp only [List.nil_append]
    rw [List.find?_cons_of_neg _ (by simp [beq_iff_eq]; exact fun h => hne h.symm)]
  | e :: l, p, c, q, hne => by
    by_cases he : e.1 = q
    · rw [List.cons_append, List.find?_cons_of_pos _ (by simp [beq_iff_eq, he]),
        List.find?_cons_of_pos _ (by simp [beq_iff_eq, he])]
    · rw [List.cons_append, List.find?_cons_of_neg _ (by simp [beq_iff_eq, he]),
        List.find?_cons_of_neg _ (by simp [beq_iff_eq, he])]
      exact find?_append_single_other l p c q hne

theorem fsRead_fsWrite_same (fs : FS) (p : FsPath) (c : Str) :
    fsRead (fsWrite fs p c) p = some c := by
  unfold fsRead fsWrite
  by_cases h : ((fs.files.map Prod.fst).contains p) = true
  · rw [if_pos h]
    have hmem : p ∈ fs.files.map Prod.fst := List.elem_iff.mp h
    simp [find?_write_self fs.files p c hmem]
  · rw [if_neg h]
    have hmem : p ∉ fs.files.map Prod.fst := fun hm => h (List.elem_iff.mpr hm)
    simp [find?_append_single fs.files p c hmem]

theorem fsRead_fsWrite_other (fs : FS) (p : FsPath) (c : Str) (q : FsPath)
    (hne : q ≠ p) :
    fsRead (fsWrite fs p c) q = fsRead fs q := by
  unfold fsRead fsWrite
  by_cases h : ((fs.files.map Prod.fst).contains p) = true
  · rw [if_pos h]
    simp [find?_write_other fs.files p c q hne]
  · rw [if_neg h]
    simp [find?_append_single_other fs.files p c q hne]

theorem mem_prefixesOf_self (p : FsPath) (hp : p ≠ []) : p ∈ prefixesOf p := by
  unfold prefixesOf
  rw [List.mem_map]
  have hpos : 0 < p.length := List.length_pos.mpr hp
  refine ⟨p.length - 1, ?_, ?_⟩
  · rw [List.mem_range]
    omega
  · have h1 : p.length - 1 + 1 = p.length := by omega
    rw [h1, List.take_length]

theorem dirExists_createDirAll (p : FsPath) (fs : FS) (hp : p ≠ []) :
    dirExists p (createDirAll p fs) = true := by
  unfold dirExists createDirAll
  rw [decide_eq_true_eq]
  by_cases h : p ∈ fs.dirs
  · exact List.mem_append.mpr (.inl h)
  · refine List.mem_append.mpr (.inr ?_)
    rw [List.mem_filter]
    exact ⟨mem_prefixesOf_self p hp, by simp [h]⟩

theorem childName_prefixesOf (d : FsPath) : ∀ q ∈ prefixesOf d, childName d q = none := by
  intro q hq
  unfold prefixesOf at hq
  rcases List.mem_map.mp hq with ⟨n, hn, hq2⟩
  rw [List.mem_range] at hn
  have hlen : q.length ≤ d.length := by
    rw [← hq2, List.length_take]
    exact min_le_right _ _
  unfold childName
  rw [if_neg]
  rintro ⟨-, h2⟩
  omega

theorem childName_append (d : FsPath) (f : Str) : childName d (d ++ [f]) = some f := by
  unfold childName
  rw [if_pos ⟨List.take_left d [f], by simp⟩]
  exact List.getLast?_concat d

/-- Claim C6: project-directory resolution: error when the home directory is
undeterminable; `<home>/.td` when no origin URL is resolvable; and
`<home>/.td/<sanitized origin URL>` when one is, the appended segment being
exactly the sanitizer applied to the URL; in both success cases the
resolved directory exists afterwards. -/
theorem project_dir_resolution (env : Env) (fs : FS) :
    (env.home = none → get_project_path env fs = .error .configError)
  ∧ (∀ h, env.home = some h → env.originUrl = none →
      get_project_path env fs = .ok (h ++ [tdSeg], createDirAll (h ++ [tdSeg]) fs)
      ∧ dirExists (h ++ [tdSeg]) (createDirAll (h ++ [tdSeg]) fs) = true)
  ∧ (∀ h u, env.home = some h → env.originUrl = some u →
      get_project_path env fs
        = .ok (h ++ [tdSeg, sanitize_dir_name u],
            createDirAll (h ++ [tdSeg, sanitize_dir_name u]) fs)
      ∧ dirExists (h ++ [tdSeg, sanitize_dir_name u])
          (createDirAll (h ++ [tdSeg, sanitize_dir_name u]) fs) = true) := by
  refine ⟨?_, ?_, ?_⟩
  · intro hh
    simp only [get_project_path_eq, hh]
  · intro h hh ho
    have heq := get_project_path_eq env fs
    simp only [hh, ho] at heq
    have hD : projDirOf h none = h ++ [tdSeg] := by
      simp [projDirOf]
    rw [hD] at heq
    exact ⟨heq, dirExists_createDirAll _ _ (by simp)⟩
  · intro h u hh ho
    have heq := get_project_path_eq env fs
    simp only [hh, ho] at heq
    have hD : projDirOf h (some u) = h ++ [tdSeg, sanitize_dir_name u] := by
      simp [projDirOf]
    rw [hD] at heq
    exact ⟨heq, dirExists_createDirAll _ _ (by simp)⟩

def envNoHome : Env :=
  { home := none, originUrl := none, now := sampleTime, freshId := sampleUuid }

theorem project_dir_resolution_witness :
    get_project_path envNoHome emptyFS = .error .configError :=
  (project_dir_resolution envNoHome emptyFS).1 rfl

/-- Claim C5: every `add` writes to the fixed file name `test_file.td`
inside the resolved project directory, independently of the task's
attributes; two successive adds in the same project directory write to the
same file, the second overwriting the first, and no other file is touched. -/
theorem add_writes_fixed_file (a1 a2 : AddArgs) (e1 e2 : Env) (fs : FS) (h : FsPath)
    (hh1 : e1.home = some h) (hh2 : e2.home = some h)
    (ho : e2.originUrl = e1.originUrl) :
    ∃ fs1 fs2,
      add_task a1 e1 fs = .ok fs1
    ∧ add_task a2 e2 fs1 = .ok fs2
    ∧ fsRead fs1 (projDirOf h e1.originUrl ++ [taskFileName])
        = some (TaskRecord.to_string (TaskRecord.new a1 e1.now e1.freshId))
    ∧ fsRead fs2 (projDirOf h e1.originUrl ++ [taskFileName])
        = some (TaskRecord.to_string (TaskRecord.new a2 e2.now e2.freshId))
    ∧ ∀ p, p ≠ projDirOf h e1.originUrl ++ [taskFileName] →
        fsRead fs2 p = fsRead fs p := by
  have h1 : add_task a1 e1 fs
      = .ok (fsWrite (createDirAll (projDirOf h e1.originUrl) fs)
          (projDirOf h e1.originUrl ++ [taskFileName])
          (TaskRecord.to_string (TaskRecord.new a1 e1.now e1.freshId))) := by
    simp only [add_task, get_project_path_eq, hh1]
  have h2 : add_task a2 e2
        (fsWrite (createDirAll (projDirOf h e1.originUrl) fs)
          (projDirOf h e1.originUrl ++ [taskFileName])
          (TaskRecord.to_string (TaskRecord.new a1 e1.now e1.freshId)))
      = .ok (fsWrite
          (createDirAll (projDirOf h e1.originUrl)
            (fsWrite (createDirAll (projDirOf h e1.originUrl) fs)
              (projDirOf h e1.originUrl ++ [taskFileName])
              (TaskRecord.to_string (TaskRecord.new a1 e1.now e1.freshId))))
          (projDirOf h e1.originUrl ++ [taskFileName])
          (TaskRecord.to_string (TaskRecord.new a2 e2.now e2.freshId))) := by
    simp only [add_task, get_project_path_eq, hh2, ho]
  refine ⟨_, _, h1, h2, fsRead_fsWrite_same _ _ _, fsRead_fsWrite_same _ _ _, ?_⟩
  intro p hne
  rw [fsRead_fsWrite_other _ _ _ _ hne, fsRead_createDirAll,
    fsRead_fsWrite_other _ _ _ _ hne, fsRead_createDirAll]

def envHome : Env :=
  { home := some [['h', 'o', 'm', 'e']], originUrl := none,
    now := sampleTime, freshId := sampleUuid }

theorem add_writes_fixed_file_witness :
    ∃ fs1 fs2,
      add_task { title := ['a'], desc := none, tags := none } envHome emptyFS = .ok fs1
    ∧ add_task { title := ['b'], desc := none, tags := none } envHome fs1 = .ok fs2
    ∧ fsRead fs1 (projDirOf [['h', 'o', 'm', 'e']] envHome.originUrl ++ [taskFileName])
        = some (TaskRecord.to_string (TaskRecord.new
            { title := ['a'], desc := none, tags := none } envHome.now envHome.freshId))
    ∧ fsRead fs2 (projDirOf [['h', 'o', 'm', 'e']] envHome.originUrl ++ [taskFileName])
        = some (TaskRecord.to_string (TaskRecord.new
            { title := ['b'], desc := none, tags := none } envHome.now envHome.freshId))
    ∧ ∀ p, p ≠ projDirOf [['h', 'o', 'm', 'e']] envHome.originUrl ++ [taskFileName] →
        fsRead fs2 p = fsRead emptyFS p := by
  have hex := add_writes_fixed_file
    { title := ['a'], desc := none, tags := none }
    { title := ['b'], desc := none, tags := none }
    envHome envHome emptyFS [['h', 'o', 'm', 'e']] rfl rfl rfl
  exact hex

theorem filterMap_childName_createDirAll (d : FsPath) (fs : FS)
    (hdirs : ∀ q ∈ fs.dirs, childName d q = none) :
    (createDirAll d fs).dirs.filterMap (childName d) = [] := by
  rw [List.filterMap_eq_nil_iff]
  intro q hq
  unfold createDirAll at hq
  rcases List.mem_append.mp hq with h1 | h1
  · exact hdirs q h1
  · exact childName_prefixesOf d q (List.mem_filter.mp h1).1

/-- Claim C9 is false as stated: `ls` does not print the directory's entry
names "and nothing else" — on an empty, newly created project directory,
where the claim says it prints an empty list of names, its stdout consists
of the three diagnostic lines `ls command`, `ls` and `project dir: ...`
(main.rs lines 121, 148 and 150). -/
theorem ls_output_counterexample :
    lsCommand envHome emptyFS
      = .ok [lsCommandLine, lsLine,
          projectDirLine (projDirOf [['h', 'o', 'm', 'e']] none)]
  ∧ lsCommand envHome emptyFS ≠ .ok [] :=
  ⟨by decide, by decide⟩

/-- Claim C9 (amended): `ls` prints the diagnostic lines `ls command`, `ls`
and `project dir: <resolved directory>`, followed by the names of all
entries of the resolved project directory, one name per line and nothing
else, in enumeration order; on an empty, newly created project directory
the printed name list is empty (the output is exactly the three diagnostic
lines), and after one `add` the printed names include that task's file
name. -/
theorem ls_lists_directory (env : Env) (fs : FS) :
    (∀ dir fs1, get_project_path env fs = .ok (dir, fs1) →
      lsCommand env fs
        = .ok (lsCommandLine :: lsLine :: projectDirLine dir :: readDir dir fs1))
  ∧ (∀ h, env.home = some h →
      lsCommand env emptyFS
        = .ok [lsCommandLine, lsLine,
            projectDirLine (projDirOf h env.originUrl)])
  ∧ (∀ a fs1, add_task a env emptyFS = .ok fs1 →
      ∃ dir names, lsCommand env fs1
          = .ok (lsCommandLine :: lsLine :: projectDirLine dir :: names)
        ∧ taskFileName ∈ names) := by
  refine ⟨?_, ?_, ?_⟩
  · intro dir fs1 hp
    simp only [lsCommand, list_task, hp]
  · intro h hh
    have heq := get_project_path_eq env emptyFS
    simp only [hh] at heq
    have hnames : readDir (projDirOf h env.originUrl)
        (createDirAll (projDirOf h env.originUrl) emptyFS) = [] := by
      unfold readDir
      rw [filterMap_childName_createDirAll _ _ (by intro q hq; simp [emptyFS] at hq)]
      rfl
    simp only [lsCommand, list_task, heq, hnames]
  · intro a fs1 ha
    cases hh : env.home with
    | none =>
      simp only [add_task, get_project_path_eq, hh] at ha
      exact Except.noConfusion ha
    | some h =>
      simp only [add_task, get_project_path_eq, hh] at ha
      have heq2 := get_project_path_eq env fs1
      simp only [hh] at heq2
      refine ⟨projDirOf h env.originUrl,
        readDir (projDirOf h env.originUrl)
          (createDirAll (projDirOf h env.originUrl) fs1),
        ?_, ?_⟩
      · simp only [lsCommand, list_task, heq2]
      · injection ha with ha2
        rw [← ha2]
        unfold readDir
        refine List.mem_append.mpr (.inr ?_)
        have hfiles : (createDirAll (projDirOf h env.originUrl)
            (fsWrite (createDirAll (projDirOf h env.originUrl) emptyFS)
              (projDirOf h env.originUrl ++ [taskFileName])
              (TaskRecord.to_string (TaskRecord.new a env.now env.freshId)))).files
            = [(projDirOf h env.originUrl ++ [taskFileName],
                TaskRecord.to_string (TaskRecord.new a env.now env.freshId))] := rfl
        rw [hfiles]
        simp [List.filterMap, childName_append]

theorem ls_lists_directory_witness :
    lsCommand envHome emptyFS
      = .ok [lsCommandLine, lsLine,
          projectDirLine (projDirOf [['h', 'o', 'm', 'e']] envHome.originUrl)] :=
  (ls_lists_directory envHome emptyFS).2.1 [['h', 'o', 'm', 'e']] rfl

/- ===== Claims C7, C8, C10 ===== -/

def hexDigit (c : Char) : Bool :=
  c.isDigit || ['a', 'b', 'c', 'd', 'e', 'f'].contains c

/-- Canonical (lowercase, hyphenated) UUID string shape, as produced by
`Uuid::new_v4().to_string()`. -/
def uuidStr (s : Str) : Bool :=
  (s.length == 36) && (List.range 36).all (fun i =>
    if i ∈ [8, 13, 18, 23] then s.getD i ' ' == '-'
    else hexDigit (s.getD i ' '))

def writeTestsTitle : Str :=
  ['W', 'r', 'i', 't', 'e', ' ', 't', 'e', 's', 't', 's']

def writeTestsArgs : AddArgs :=
  { title := writeTestsTitle, desc := none, tags := none }

/-- Claim C7: `add` with title `Write tests`, no description and no tags
yields status TODO, empty tags, absent `updated_at`, `created_at` equal to
the invocation time, a non-empty id and an empty description; the
serialized metadata consists of exactly the title, status, created_at and
id lines, with the tags and updated_at fields omitted. -/
theorem add_default_record (now freshId : Str) (hid : uuidStr freshId = true) :
    (TaskRecord.new writeTestsArgs now freshId).metadata.status = .TODO
  ∧ (TaskRecord.new writeTestsArgs now freshId).metadata.tags = []
  ∧ (TaskRecord.new writeTestsArgs now freshId).metadata.updated_at = none
  ∧ (TaskRecord.new writeTestsArgs now freshId).metadata.created_at = now
  ∧ (TaskRecord.new writeTestsArgs now freshId).metadata.id ≠ []
  ∧ (TaskRecord.new writeTestsArgs now freshId).description = []
  ∧ encodeMeta (TaskRecord.new writeTestsArgs now freshId).metadata
      = unlines [kvLine titleKey writeTestsTitle,
          kvLine statusKey (statusStr .TODO),
          kvLine createdKey now, kvLine idKey freshId] := by
  refine ⟨rfl, rfl, rfl, rfl, ?_, rfl, rfl⟩
  have h1 := bandL hid
  have hlen : freshId.length = 36 := by
    simpa using h1
  intro hnil
  have hnil2 : freshId = [] := hnil
  rw [hnil2] at hlen
  simp at hlen

theorem add_default_record_witness :
    uuidStr sampleUuid = true
  ∧ (TaskRecord.new writeTestsArgs sampleTime sampleUuid).metadata.id ≠ [] :=
  ⟨by decide, (add_default_record sampleTime sampleUuid (by decide)).2.2.2.2.1⟩

def abcTagsArg : Str := ['a', ',', ' ', 'b', ' ', ',', 'c']

/-- Claim C8: `add` with the tags argument `a, b ,c` yields the ordered tag
sequence `a`, `b`, `c`; in general the tags are the comma-separated pieces
of the argument with surrounding whitespace trimmed, in order. -/
theorem add_tags_split_and_trim (title : Str) (d : Option Str) (now freshId : Str) :
    (TaskRecord.new { title := title, desc := d, tags := some abcTagsArg }
        now freshId).metadata.tags
      = [['a'], ['b'], ['c']]
  ∧ ∀ s : Str,
      (TaskRecord.new { title := title, desc := d, tags := some s }
          now freshId).metadata.tags
        = (splitOnChar ',' s).map trimWs :=
  ⟨rfl, fun _ => rfl⟩

theorem hasSub_nil_pat : ∀ t : Str, hasSub ([] : Str) t = true
  | [] => rfl
  | c :: t => by
    rw [hasSub]
    simp [List.isPrefixOf]

theorem isPrefixOf_extend : ∀ p s t : Str, p.isPrefixOf s = true →
    p.isPrefixOf (s ++ t) = true
  | [], s, t, _ => by cases hs : s ++ t <;> simp [List.isPrefixOf]
  | c :: p, [], t, h => by simp [List.isPrefixOf] at h
  | c :: p, d :: s, t, h => by
    have h2 : ((c == d) && p.isPrefixOf s) = true := h
    have ih := isPrefixOf_extend p s t (bandR h2)
    rw [List.cons_append]
    have hcd := bandL h2
    simp [List.isPrefixOf, hcd, ih]

theorem hasSub_self_append (pat b : Str) : hasSub pat (pat ++ b) = true := by
  cases pat with
  | nil => exact hasSub_nil_pat _
  | cons c p =>
    have h1 : (c :: p).isPrefixOf ((c :: p) ++ b) = true := isPrefixOf_append_self _ _
    rw [List.cons_append] at h1 ⊢
    rw [hasSub, h1, Bool.true_or]

theorem hasSub_append_left (pat : Str) : ∀ a t : Str, hasSub pat t = true →
    hasSub pat (a ++ t) = true
  | [], t, h => by simpa using h
  | c :: a, t, h => by
    have ih := hasSub_append_left pat a t h
    rw [List.cons_append, hasSub, ih, Bool.or_true]

theorem hasSub_append_right (pat : Str) : ∀ s t : Str, hasSub pat s = true →
    hasSub pat (s ++ t) = true
  | [], t, h => by
    have hp : pat.isEmpty = true := h
    have hp2 : pat = [] := by simpa [List.isEmpty_iff] using hp
    rw [hp2]
    exact hasSub_nil_pat _
  | c :: s, t, h => by
    rw [hasSub] at h
    cases h1 : pat.isPrefixOf (c :: s) with
    | true =>
      have h2 := isPrefixOf_extend pat (c :: s) t h1
      rw [List.cons_append] at h2
      rw [List.cons_append, hasSub, h2, Bool.true_or]
    | false =>
      rw [h1, Bool.false_or] at h
      have ih := hasSub_append_right pat s t h
      rw [List.cons_append, hasSub, ih, Bool.or_true]

theorem hasSub_line_unlines (l : Str) : ∀ L : List Str, l ∈ L →
    hasSub (l ++ ['\n']) (unlines L) = true
  | [], h => by simp at h
  | x :: L, h => by
    rcases List.mem_cons.mp h with h1 | h1
    · subst h1
      have hE : unlines (l :: L) = (l ++ ['\n']) ++ unlines L := by
        simp [unlines, List.append_assoc]
      rw [hE]
      exact hasSub_self_append _ _
    · have ih := hasSub_line_unlines l L h1
      have hE : unlines (x :: L) = (x ++ ['\n']) ++ unlines L := by
        simp [unlines, List.append_assoc]
      rw [hE]
      exact hasSub_append_left _ _ _ ih

/-- Claim C10: `add` with the empty string as tags argument produces the
one-element tag sequence consisting of a single empty tag — not the empty
list — and, that sequence being non-empty, the serialized form contains the
tags field (the `tags:` block line) instead of omitting it. -/
theorem empty_tags_arg_included (title : Str) (d : Option Str) (now freshId : Str) :
    (TaskRecord.new { title := title, desc := d, tags := some [] }
        now freshId).metadata.tags = [[]]
  ∧ (TaskRecord.new { title := title, desc := d, tags := some [] }
        now freshId).metadata.tags ≠ []
  ∧ hasSub (tagsHeaderLine ++ ['\n'])
      (TaskRecord.to_string
        (TaskRecord.new { title := title, desc := d, tags := some [] } now freshId))
      = true := by
  refine ⟨rfl, ?_, ?_⟩
  · intro hh
    have hh2 : ([[]] : List Str) = [] := hh
    exact List.noConfusion hh2
  · have hmem : tagsHeaderLine ∈ metaLines
        (TaskRecord.new { title := title, desc := d, tags := some [] }
          now freshId).metadata := by
      simp [metaLines, TaskRecord.new]
      exact Or.inr (Or.inr (Or.inr (Or.inr (by decide))))
    have h1 := hasSub_line_unlines tagsHeaderLine _ hmem
    have h2 := hasSub_append_right (tagsHeaderLine ++ ['\n']) _
      (delim ++ (TaskRecord.new { title := title, desc := d, tags := some [] }
        now freshId).description) h1
    have h3 := hasSub_append_left (tagsHeaderLine ++ ['\n']) delim _ h2
    have hshape : TaskRecord.to_string
        (TaskRecord.new { title := title, desc := d, tags := some [] } now freshId)
      = delim ++ (encodeMeta (TaskRecord.new { title := title, desc := d, tags := some [] }
          now freshId).metadata
        ++ (delim ++ (TaskRecord.new { title := title, desc := d, tags := some [] }
            now freshId).description)) := by
      simp [TaskRecord.to_string, List.append_assoc]
    rw [hshape]
    exact h3
